import Mathlib

set_option maxRecDepth 100000

/-!
# Verification of the darwin schema-migration core

Shallow embedding of the `darwin` package (file `mysql_dialect.go` of the
repository): migration-script parsing, validation, planning, the apply loop
and the status reporter, together with proofs of the specified properties.

Modelling conventions:
* A Go `string` is a sequence of bytes; we model it as `List Nat`
  (each element `< 256`), called `GoStr`.  Concrete literals are built from
  Lean strings with `strBytes` (UTF-8 encoding, as Go source literals are).
* `float64` version numbers are modelled as exact rationals `ℚ`.  The claims
  under study only involve ordering and equality of small decimal values,
  where IEEE rounding plays no role.
* `time.Duration` / timestamps are modelled as `Nat` parameters; the code
  never inspects them.
* Go's `sort.Sort` (an unstable comparison sort) is modelled by
  `List.mergeSort` with the same comparison: the code only depends on the
  output being a sorted permutation of the input.
* Panics (out-of-range slice indexing) are modelled explicitly as a
  `.panicked` result constructor.
-/

/-- A Go string: a sequence of bytes. -/
abbrev GoStr := List Nat

/-- UTF-8 encoding of a single code point, as Go encodes source literals. -/
def utf8Bytes (c : Nat) : List Nat :=
  if c < 128 then [c]
  else if c < 2048 then [192 + c / 64, 128 + c % 64]
  else if c < 65536 then [224 + c / 4096, 128 + c / 64 % 64, 128 + c % 64]
  else [240 + c / 262144, 128 + c / 4096 % 64, 128 + c / 64 % 64, 128 + c % 64]

/-- The bytes of a Lean string literal, UTF-8 encoded (Go `[]byte(s)`). -/
def strBytes (s : String) : GoStr :=
  s.data.flatMap (fun c => utf8Bytes c.toNat)

/-! ## MD5 (Go `crypto/md5`, used by `Migration.Checksum`) -/

/-- Left rotation within 32 bits. -/
def rotl32 (x s : Nat) : Nat := ((x <<< s) ||| (x >>> (32 - s))) % 4294967296

/-- The MD5 sine-derived constant table (RFC 1321). -/
def md5KTable : List Nat :=
  [0xd76aa478, 0xe8c7b756, 0x242070db, 0xc1bdceee,
   0xf57c0faf, 0x4787c62a, 0xa8304613, 0xfd469501,
   0x698098d8, 0x8b44f7af, 0xffff5bb1, 0x895cd7be,
   0x6b901122, 0xfd987193, 0xa679438e, 0x49b40821,
   0xf61e2562, 0xc040b340, 0x265e5a51, 0xe9b6c7aa,
   0xd62f105d, 0x02441453, 0xd8a1e681, 0xe7d3fbc8,
   0x21e1cde6, 0xc33707d6, 0xf4d50d87, 0x455a14ed,
   0xa9e3e905, 0xfcefa3f8, 0x676f02d9, 0x8d2a4c8a,
   0xfffa3942, 0x8771f681, 0x6d9d6122, 0xfde5380c,
   0xa4beea44, 0x4bdecfa9, 0xf6bb4b60, 0xbebfbc70,
   0x289b7ec6, 0xeaa127fa, 0xd4ef3085, 0x04881d05,
   0xd9d4d039, 0xe6db99e5, 0x1fa27cf8, 0xc4ac5665,
   0xf4292244, 0x432aff97, 0xab9423a7, 0xfc93a039,
   0x655b59c3, 0x8f0ccc92, 0xffeff47d, 0x85845dd1,
   0x6fa87e4f, 0xfe2ce6e0, 0xa3014314, 0x4e0811a1,
   0xf7537e82, 0xbd3af235, 0x2ad7d2bb, 0xeb86d391]

/-- The MD5 per-step shift amounts (RFC 1321). -/
def md5STable : List Nat :=
  [7, 12, 17, 22, 7, 12, 17, 22, 7, 12, 17, 22, 7, 12, 17, 22,
   5, 9, 14, 20, 5, 9, 14, 20, 5, 9, 14, 20, 5, 9, 14, 20,
   4, 11, 16, 23, 4, 11, 16, 23, 4, 11, 16, 23, 4, 11, 16, 23,
   6, 10, 15, 21, 6, 10, 15, 21, 6, 10, 15, 21, 6, 10, 15, 21]

/-- The MD5 round function for step `i` (bitwise complement written as
xor with the 32-bit mask). -/
def md5F (i b c d : Nat) : Nat :=
  if i < 16 then (b &&& c) ||| ((b ^^^ 4294967295) &&& d)
  else if i < 32 then (d &&& b) ||| ((d ^^^ 4294967295) &&& c)
  else if i < 48 then b ^^^ c ^^^ d
  else c ^^^ (b ||| (d ^^^ 4294967295))

/-- The MD5 message-word index for step `i`. -/
def md5G (i : Nat) : Nat :=
  if i < 16 then i
  else if i < 32 then (5 * i + 1) % 16
  else if i < 48 then (3 * i + 5) % 16
  else (7 * i) % 16

/-- One MD5 step on the state `(a, b, c, d)`; `M` reads message words. -/
def md5Step (M : Nat → Nat) (st : Nat × Nat × Nat × Nat) (i : Nat) :
    Nat × Nat × Nat × Nat :=
  let a := st.1; let b := st.2.1; let c := st.2.2.1; let d := st.2.2.2
  let f := (md5F i b c d + a + md5KTable.getD i 0 + M (md5G i)) % 4294967296
  (d, (b + rotl32 f (md5STable.getD i 0)) % 4294967296, b, c)

/-- Little-endian 32-bit word `j` of a 64-byte chunk. -/
def wordAt (chunk : List Nat) (j : Nat) : Nat :=
  chunk.getD (4 * j) 0 + 256 * chunk.getD (4 * j + 1) 0 +
    65536 * chunk.getD (4 * j + 2) 0 + 16777216 * chunk.getD (4 * j + 3) 0

/-- Process one 64-byte chunk. -/
def md5Chunk (st : Nat × Nat × Nat × Nat) (chunk : List Nat) :
    Nat × Nat × Nat × Nat :=
  let r := (List.range 64).foldl (md5Step (wordAt chunk)) st
  ((st.1 + r.1) % 4294967296, (st.2.1 + r.2.1) % 4294967296,
   (st.2.2.1 + r.2.2.1) % 4294967296, (st.2.2.2 + r.2.2.2) % 4294967296)

/-- MD5 padding: `0x80`, zeros to 56 mod 64, then the bit length as a
little-endian 64-bit quantity. -/
def md5Pad (msg : List Nat) : List Nat :=
  let n := msg.length
  let zeros := (120 - (n + 1) % 64) % 64
  msg ++ [128] ++ List.replicate zeros 0 ++
    (List.range 8).map (fun i => 8 * n / 256 ^ i % 256)

/-- Little-endian bytes of one 32-bit word. -/
def le32 (x : Nat) : List Nat := [x % 256, x / 256 % 256, x / 65536 % 256, x / 16777216 % 256]

/-- The 16-byte MD5 digest of a byte sequence. -/
def md5Bytes (msg : List Nat) : List Nat :=
  let padded := md5Pad msg
  let chunks := (List.range (padded.length / 64)).map
    (fun i => (padded.drop (64 * i)).take 64)
  let st := chunks.foldl md5Chunk (0x67452301, 0xefcdab89, 0x98badcfe, 0x10325476)
  le32 st.1 ++ le32 st.2.1 ++ le32 st.2.2.1 ++ le32 st.2.2.2

/-- Lowercase hex digit, as a byte (Go `fmt.Sprintf("%x", ...)`). -/
def hexDigit (n : Nat) : Nat := if n < 10 then 48 + n else 87 + n

/-- Lowercase hex rendering of a byte sequence (Go `fmt.Sprintf("%x", ...)`). -/
def md5Hex (msg : List Nat) : GoStr :=
  (md5Bytes msg).flatMap (fun b => [hexDigit (b / 16), hexDigit (b % 16)])

/-! ## Data model -/

/-- Go struct `Migration`: represents a database migration (Go struct `Migration`);
`Version float64` is modelled as `ℚ`, the strings as byte sequences. -/
structure Migration where
  Version : ℚ
  Description : GoStr
  Script : GoStr
  deriving DecidableEq, Repr, Inhabited

/-- Method `Checksum` calculates the `Script` md5 (Go `Migration.Checksum`). -/
def Migration.Checksum (m : Migration) : GoStr := md5Hex m.Script

/-- Modelled from the spec (§3, §6): `MigrationRecord` is one row of durable
history `{version, description, checksum, applied_at, execution_time}`; its
Go declaration lives in a repository file outside `src/`. -/
structure MigrationRecord where
  Version : ℚ
  Description : GoStr
  Checksum : GoStr
  AppliedAt : Nat
  ExecutionTime : Nat
  deriving DecidableEq, Repr, Inhabited

/-- Go `Status`: a migration status value (Go `Status`). -/
inductive Status where
  | Ignored | Applied | Pending | Error
  deriving DecidableEq, Repr, Inhabited

/-- Go struct `MigrationInfo`: pairs a migration with its computed status
(Go `MigrationInfo`); the `Error` field is carried for faithfulness and is
always `none` in `Info`'s output. -/
structure MigrationInfo where
  Status : Status
  Error : Option Unit
  Migration : Migration
  deriving DecidableEq, Repr

/-! ## Script parser (`ParseMigrations`)

`ParseMigrations` scans the input line by line (`bufio.ScanLines`): lines are
split on `\n`, one trailing `\r` is dropped from each line, a trailing
newline does not produce a final empty line.  A line is a version marker when
lower-casing it (`strings.ToLower`, ASCII fragment — the markers are ASCII)
and removing the first space (`strings.Replace(s, " ", "", 1)`) yields a
sequence starting with `--version:`; a description marker likewise with
`--description:`.  The payload is taken from the RAW line by the
fixed byte offsets `v[11:]` / `v[15:]`, which panic when the line is shorter
than 11 / 15 bytes.  The version payload is parsed with
`strconv.ParseFloat`; on failure the whole call returns `nil` after printing
a diagnostic.  We model the decimal (optional sign / digits / fraction /
exponent) fragment of `ParseFloat`, the one relevant to the code's inputs,
with exact rational values. -/

/-- Lower-case one byte (ASCII fragment of `strings.ToLower`; the marker
detection only involves ASCII letters). -/
def lowerByte (b : Nat) : Nat := if 65 ≤ b ∧ b ≤ 90 then b + 32 else b

/-- Remove the first space, if any (Go `strings.Replace(s, " ", "", 1)`). -/
def removeFirstSpace : GoStr → GoStr
  | [] => []
  | b :: rest => if b = 32 then rest else b :: removeFirstSpace rest

/-- The normalized form of a line used by the marker tests. -/
def normalizeLine (v : GoStr) : GoStr := removeFirstSpace (v.map lowerByte)

/-- Is `b` an ASCII whitespace byte (fragment of `unicode.IsSpace` used by
`strings.TrimSpace` on the code's inputs)? -/
def isSpaceByte (b : Nat) : Bool := b = 32 || b = 9 || b = 10 || b = 11 || b = 12 || b = 13

/-- Go `strings.TrimSpace` on bytes, ASCII fragment: Go also trims Unicode
spaces (U+0085, U+00A0, ...) from the ends, which this model leaves in
place.  Statements that infer a Go parse failure therefore require the
offending payload byte to be ASCII and non-whitespace: such a byte is never
part of a multi-byte whitespace rune, so it survives Go's wider trim as
well. -/
def trimSpaceB (v : GoStr) : GoStr :=
  ((v.dropWhile isSpaceByte).reverse.dropWhile isSpaceByte).reverse

/-- Is `b` an ASCII digit byte? -/
def isDigitByte (b : Nat) : Bool := 48 ≤ b && b ≤ 57

/-- Decimal value of a digit byte sequence. -/
def digitsVal (ds : List Nat) : Nat := ds.foldl (fun acc d => acc * 10 + (d - 48)) 0

/-- Sign factor of an exponent part: `-1` when the exponent digits are
preceded by a minus, `1` otherwise. -/
def parseExpSign (rest : GoStr) : ℤ :=
  if rest.head? = some 45 then -1 else 1

/-- Digit bytes of an exponent part: the input minus a leading sign byte. -/
def parseExpDigits (rest : GoStr) : GoStr :=
  if rest.head? = some 45 ∨ rest.head? = some 43 then rest.tail else rest

/-- The exponent part of a float literal: `[e|E][+|-]digits` consuming the
whole remaining input, or nothing at all. -/
def parseExpPart : GoStr → Option ℤ
  | [] => some 0
  | b :: rest =>
    if b = 101 ∨ b = 69 then
      if parseExpDigits rest ≠ [] ∧ (parseExpDigits rest).all isDigitByte then
        some (parseExpSign rest * digitsVal (parseExpDigits rest))
      else none
    else none

/-- Fraction digits of a mantissa, from the remainder after the integer
digits: the digits following a leading dot, if any. -/
def mantissaFrac (r1 : GoStr) : GoStr :=
  if r1.head? = some 46 then r1.tail.takeWhile isDigitByte else []

/-- Remainder of a mantissa after integer digits, dot and fraction digits:
what must form the exponent part. -/
def mantissaRest (r1 : GoStr) : GoStr :=
  if r1.head? = some 46 then r1.tail.dropWhile isDigitByte else r1

/-- Exact rational value of integer digits `ip`, fraction digits `fp` and
decimal exponent `e`. -/
def mantissaVal (ip fp : GoStr) (e : ℤ) : ℚ :=
  if 0 ≤ e then
    mkRat ((digitsVal ip * 10 ^ fp.length + digitsVal fp) * 10 ^ e.toNat)
      (10 ^ fp.length)
  else
    mkRat (digitsVal ip * 10 ^ fp.length + digitsVal fp)
      (10 ^ fp.length * 10 ^ (-e).toNat)

/-- The unsigned mantissa-and-exponent part of a float literal: integer
digits, optional dot and fraction digits (at least one mantissa digit
required), optional exponent, consuming the whole input. -/
def parseMantissa (bs : GoStr) : Option ℚ :=
  if bs.takeWhile isDigitByte = [] ∧ mantissaFrac (bs.dropWhile isDigitByte) = []
  then none
  else
    match parseExpPart (mantissaRest (bs.dropWhile isDigitByte)) with
    | none => none
    | some e =>
      some (mantissaVal (bs.takeWhile isDigitByte)
        (mantissaFrac (bs.dropWhile isDigitByte)) e)

/-- Go `strconv.ParseFloat`, modelled on its decimal fragment with exact
rational values.  The fragment accepts exactly the decimal literals
(optional sign, digits with optional dot and `e`-exponent); the special
forms `ParseFloat` additionally accepts (`Inf`/`Infinity`/`NaN`, hex floats,
underscore-separated digits) are outside this fragment, so a `= none`
result here does not by itself imply the Go call fails — the sound
sufficient condition used by the proofs is a payload byte outside
`goFloatByte`, the alphabet of every `ParseFloat`-accepted input. -/
def parseFloatB (bs : GoStr) : Option ℚ :=
  if bs.head? = some 43 then parseMantissa bs.tail
  else if bs.head? = some 45 then (parseMantissa bs.tail).map Neg.neg
  else parseMantissa bs

/-- Go `bufio.ScanLines` line splitting, inner loop: `cur` holds the bytes of
the current line in reverse.  A byte 10 terminates a line; input exhaustion
yields the final (unterminated) line; input ending right after a newline
yields nothing further. -/
def splitLinesAux : List Nat → List Nat → List GoStr
  | cur, [] => [cur.reverse]
  | cur, b :: rest =>
    if b = 10 then
      cur.reverse :: (match rest with | [] => [] | _ => splitLinesAux [] rest)
    else
      splitLinesAux (b :: cur) rest

/-- Drop one trailing `\r` (Go `dropCR` inside `bufio.ScanLines`). -/
def dropCR (v : GoStr) : GoStr :=
  match v.reverse with
  | 13 :: t => t.reverse
  | _ => v

/-- Go `bufio.ScanLines` applied to a whole input.  The model splits
without bound, whereas `bufio.Scanner` stops with `ErrTooLong` — silently,
since `scanner.Err()` is never checked — on a line that does not fit its
64 KiB token buffer; universal statements over raw lines therefore carry a
`length < 65536` hypothesis to stay within the faithful regime. -/
def splitLines (bs : GoStr) : List GoStr :=
  match bs with
  | [] => []
  | _ => (splitLinesAux [] bs).map dropCR

/-- The bytes of the version marker `--version:`. -/
def versionMarker : GoStr := strBytes "--version:"

/-- The bytes of the description marker `--description:`. -/
def descriptionMarker : GoStr := strBytes "--description:"

/-- Result of a `ParseMigrations` call: a Go slice (`ok`), the `nil` return
after a float-parse failure (`failed`, all-or-nothing — no partial list), or
a runtime panic from out-of-range slicing (`panicked`). -/
inductive PResult where
  | panicked : PResult
  | failed : PResult
  | ok : List Migration → PResult
  deriving DecidableEq, Repr

/-- The scanner loop of `ParseMigrations`: `m` and `script` are the
block-in-progress, `acc` the `migrations` slice built so far.  On a version
marker the current block is appended and a fresh one started from the float
payload of `v[11:]`; on a description marker the current block's description
is set from `v[15:]`; any other line is appended to the script.  The
fixed-offset slices panic on lines shorter than 11 resp. 15 bytes. -/
def runLines (m : Migration) (script : GoStr) (acc : List Migration) :
    List GoStr → PResult
  | [] => .ok (acc ++ [{ m with Script := script }])
  | v :: rest =>
    if versionMarker.isPrefixOf (normalizeLine v) then
      if v.length < 11 then .panicked
      else
        match parseFloatB (trimSpaceB (v.drop 11)) with
        | none => .failed
        | some f =>
          runLines { Version := f, Description := [], Script := [] } []
            (acc ++ [{ m with Script := script }]) rest
    else if descriptionMarker.isPrefixOf (normalizeLine v) then
      if v.length < 15 then .panicked
      else runLines { m with Description := trimSpaceB (v.drop 15) } script acc rest
    else
      runLines m (script ++ v ++ [10]) acc rest

/-- Go `ParseMigrations` on a byte sequence; the final `migrations[1:]` drops
the block that accumulated everything before the first version marker. -/
def ParseMigrationsB (bs : GoStr) : PResult :=
  match runLines { Version := 0, Description := [], Script := [] } [] [] (splitLines bs) with
  | .ok l => .ok (l.drop 1)
  | r => r

/-- Go `ParseMigrations` on a Lean string literal. -/
def ParseMigrations (s : String) : PResult := ParseMigrationsB (strBytes s)

/-! ## Driver model and engine -/

/-- Modelled from the spec (§6): the `Driver` capability consumed by the
core, as a pure state.  `records` is the bookkeeping table (`All` returns it
in the stored order — callers never trust that order); `execF` is the target
database's response to `Exec` (`none` = the script fails, `some t` = success
with elapsed time `t`).  `Create` idempotently ensures the table and cannot
change the modelled state; `Insert` appends one record and fails on a
uniqueness violation of `version`. -/
structure DriverState where
  records : List MigrationRecord
  execF : GoStr → Option Nat

/-- Driver `Insert`: appends a record, failing (per the §6 contract) when the
version is already present. -/
def insertRecord (recs : List MigrationRecord) (r : MigrationRecord) :
    Option (List MigrationRecord) :=
  if recs.any (fun q => q.Version = r.Version) then none else some (recs ++ [r])

/-- Go `sort.Sort(byMigrationVersion(ms))`: sort migrations ascending by
version (`Less i j = b[i].Version < b[j].Version`). -/
def migVerLE (a b : Migration) : Prop := a.Version ≤ b.Version

instance : DecidableRel migVerLE :=
  fun a b => inferInstanceAs (Decidable (a.Version ≤ b.Version))

instance : IsTotal Migration migVerLE := ⟨fun a b => le_total a.Version b.Version⟩

instance : IsTrans Migration migVerLE :=
  ⟨fun _ _ _ hab hbc => le_trans hab hbc⟩

def sortMigrations (ms : List Migration) : List Migration :=
  List.insertionSort migVerLE ms

/-- Modelled from the spec (§4.5, §9): `sort.Sort(sort.Reverse(
byMigrationRecordVersion(records)))` — sort records descending by version;
the `byMigrationRecordVersion` declaration lives outside `src/` but the
spec fixes its key (the record's version). -/
def recVerGE (a b : MigrationRecord) : Prop := b.Version ≤ a.Version

instance : DecidableRel recVerGE :=
  fun a b => inferInstanceAs (Decidable (b.Version ≤ a.Version))

instance : IsTotal MigrationRecord recVerGE :=
  ⟨fun a b => le_total b.Version a.Version⟩

instance : IsTrans MigrationRecord recVerGE :=
  ⟨fun _ _ _ hab hbc => le_trans hbc hab⟩

def sortRecordsDesc (recs : List MigrationRecord) : List MigrationRecord :=
  List.insertionSort recVerGE recs

/-- Go `isInvalidVersion`: first migration version `< 0`, if any. -/
def isInvalidVersion : List Migration → Option ℚ
  | [] => none
  | m :: rest => if m.Version < 0 then some m.Version else isInvalidVersion rest

/-- Go `isDuplicated`, inner loop: scan with the set of versions already
seen (the Go `unique` map's key set). -/
def isDuplicatedAux (seen : List ℚ) : List Migration → Option ℚ
  | [] => none
  | m :: rest =>
    if m.Version ∈ seen then some m.Version
    else isDuplicatedAux (m.Version :: seen) rest

/-- Go `isDuplicated`: first version occurring twice in the list. -/
def isDuplicated (ms : List Migration) : Option ℚ := isDuplicatedAux [] ms

/-- Go `wasRemovedMigration`: first applied record whose version has no
entry in the migration set (the Go `versionMap` keyed by version). -/
def wasRemovedMigration (applied : List MigrationRecord) (ms : List Migration) :
    Option ℚ :=
  match applied.find? (fun r => ! ms.any (fun m => m.Version = r.Version)) with
  | some r => some r.Version
  | none => none

/-- The Go `versionMap` of `isInvalidChecksumMigration`: built by iterating
`applied` with later entries overriding earlier ones, then looked up. -/
def lastRecordFor (applied : List MigrationRecord) (v : ℚ) :
    Option MigrationRecord :=
  applied.foldl (fun acc r => if r.Version = v then some r else acc) none

/-- Go `isInvalidChecksumMigration`: first migration whose version has an
applied record with a different stored checksum. -/
def isInvalidChecksumMigration (applied : List MigrationRecord) :
    List Migration → Option ℚ
  | [] => none
  | m :: rest =>
    match lastRecordFor applied m.Version with
    | some r =>
      if r.Checksum ≠ m.Checksum then some m.Version
      else isInvalidChecksumMigration applied rest
    | none => isInvalidChecksumMigration applied rest

/-- Structured errors of the package, plus tags for propagated driver
errors (`Exec` / `Insert` failures are returned to the caller unmodified;
the tag records which operation failed and on what). -/
inductive DarwinError where
  | IllegalMigrationVersion (Version : ℚ)
  | DuplicateMigrationVersion (Version : ℚ)
  | RemovedMigration (Version : ℚ)
  | InvalidChecksum (Version : ℚ)
  | ExecFailed (Script : GoStr)
  | InsertFailed (Version : ℚ)
  deriving DecidableEq, Repr

/-- The check chain of `Validate` after the in-place sort, on the applied
records and the (already sorted) migration list. -/
def validateSorted (applied : List MigrationRecord) (ms : List Migration) :
    Option DarwinError :=
  match isInvalidVersion ms with
  | some v => some (.IllegalMigrationVersion v)
  | none =>
    match isDuplicated ms with
    | some v => some (.DuplicateMigrationVersion v)
    | none =>
      match wasRemovedMigration applied ms with
      | some v => some (.RemovedMigration v)
      | none =>
        match isInvalidChecksumMigration applied ms with
        | some v => some (.InvalidChecksum v)
        | none => none

/-- Go `Validate`: sorts the caller's slice in place, then runs the check
chain.  The first component is the caller-visible content of the
`migrations` slice after the call (the in-place mutation); the second is
the returned error. -/
def Validate (d : DriverState) (ms : List Migration) :
    List Migration × Option DarwinError :=
  let ms' := sortMigrations ms
  (ms', validateSorted d.records ms')

/-- Go `getStatus`: `inDatabase[0]` on an empty record list is an
out-of-range panic, modelled as `none`. -/
def getStatus (inDatabase : List MigrationRecord) (migration : Migration) :
    Option Status :=
  match inDatabase with
  | [] => none
  | last :: _ =>
    if migration.Version > last.Version then some .Pending
    else if inDatabase.any (fun r => r.Version = migration.Version) then some .Applied
    else some .Ignored

/-- Go `Info`: fetch the records, sort them descending by version, and map
every migration (in the caller-supplied order) to its status.  `none`
models the panic of `getStatus` on an empty history. -/
def Info (d : DriverState) (ms : List Migration) : Option (List MigrationInfo) :=
  let records := sortRecordsDesc d.records
  ms.mapM (fun m => (getStatus records m).map
    (fun st => { Status := st, Error := none, Migration := m }))

/-- Go `planMigration`: with no records the whole migration list (as
supplied); otherwise the migrations strictly above the high-water mark
(the maximal record version), sorted ascending. -/
def planMigration (recs : List MigrationRecord) (ms : List Migration) :
    List Migration :=
  match sortRecordsDesc recs with
  | [] => ms
  | last :: _ => sortMigrations (ms.filter (fun m => m.Version > last.Version))

/-- The record inserted by `Migrate` after migration `m` executes in `dur`. -/
def mkRecord (m : Migration) (dur now : Nat) : MigrationRecord :=
  { Version := m.Version, Description := m.Description,
    Checksum := m.Checksum, AppliedAt := now, ExecutionTime := dur }

/-- The apply loop of `Migrate`: execute each planned migration and then
insert its record, stopping at the first failure.  Returns the final
bookkeeping table, the trace of scripts handed to `Exec`, and the error. -/
def migrateLoop (execF : GoStr → Option Nat) (now : Nat)
    (recs : List MigrationRecord) :
    List Migration → List MigrationRecord × List GoStr × Option DarwinError
  | [] => (recs, [], none)
  | m :: rest =>
    match execF m.Script with
    | none => (recs, [m.Script], some (.ExecFailed m.Script))
    | some dur =>
      match insertRecord recs (mkRecord m dur now) with
      | none => (recs, [m.Script], some (.InsertFailed m.Version))
      | some recs' =>
        let r := migrateLoop execF now recs' rest
        (r.1, m.Script :: r.2.1, r.2.2)

/-- The outcome of a `Migrate` call: the driver state afterwards, the
caller-visible content of the `migrations` slice (sorted in place by
`Validate`), the scripts handed to `Exec`, and the returned error. -/
structure MigrateOut where
  state : DriverState
  callerSlice : List Migration
  trace : List GoStr
  err : Option DarwinError

/-- Go `Migrate`: `Create` (idempotent, no modelled effect), `Validate`
(sorting the caller's slice in place), `planMigration` on the sorted slice,
then the apply loop.  The process-wide mutex only serializes calls and has
no sequential effect. -/
def Migrate (d : DriverState) (now : Nat) (ms : List Migration) : MigrateOut :=
  match validateSorted d.records (sortMigrations ms) with
  | some e =>
    { state := d, callerSlice := sortMigrations ms, trace := [], err := some e }
  | none =>
    { state := { d with records :=
        (migrateLoop d.execF now d.records
          (planMigration d.records (sortMigrations ms))).1 },
      callerSlice := sortMigrations ms,
      trace := (migrateLoop d.execF now d.records
        (planMigration d.records (sortMigrations ms))).2.1,
      err := (migrateLoop d.execF now d.records
        (planMigration d.records (sortMigrations ms))).2.2 }

/-! ## Helper lemmas: sorting -/

theorem sortMigrations_perm (ms : List Migration) : (sortMigrations ms).Perm ms :=
  List.perm_insertionSort migVerLE ms

theorem mem_sortMigrations {m : Migration} {ms : List Migration} :
    m ∈ sortMigrations ms ↔ m ∈ ms :=
  (sortMigrations_perm ms).mem_iff

theorem sortMigrations_pairwise (ms : List Migration) :
    List.Pairwise (fun a b : Migration => a.Version ≤ b.Version)
      (sortMigrations ms) :=
  List.sorted_insertionSort migVerLE ms

theorem sortRecordsDesc_perm (recs : List MigrationRecord) :
    (sortRecordsDesc recs).Perm recs :=
  List.perm_insertionSort recVerGE recs

theorem sortRecordsDesc_pairwise (recs : List MigrationRecord) :
    List.Pairwise (fun a b : MigrationRecord => b.Version ≤ a.Version)
      (sortRecordsDesc recs) :=
  List.sorted_insertionSort recVerGE recs

theorem sortRecordsDesc_eq_nil {recs : List MigrationRecord} :
    sortRecordsDesc recs = [] ↔ recs = [] := by
  constructor
  · intro h
    have := (sortRecordsDesc_perm recs).symm
    rw [h] at this
    exact this.eq_nil
  · intro h
    subst h
    simp [sortRecordsDesc]

/-- The head of the descending record sort is a maximal-version record. -/
theorem sortRecordsDesc_head_max {recs : List MigrationRecord}
    {r : MigrationRecord} {t : List MigrationRecord}
    (h : sortRecordsDesc recs = r :: t) :
    r ∈ recs ∧ ∀ q ∈ recs, q.Version ≤ r.Version := by
  have hperm := sortRecordsDesc_perm recs
  constructor
  · exact hperm.mem_iff.mp (by rw [h]; exact List.mem_cons_self r t)
  · intro q hq
    have hq' : q ∈ r :: t := by rw [← h]; exact hperm.mem_iff.mpr hq
    rcases List.mem_cons.mp hq' with h1 | h1
    · exact le_of_eq (congrArg MigrationRecord.Version h1)
    · have hp := sortRecordsDesc_pairwise recs
      rw [h] at hp
      exact (List.pairwise_cons.mp hp).1 q h1

/-! ## Helper lemmas: the validation checks -/

theorem isInvalidVersion_eq_none {ms : List Migration} :
    isInvalidVersion ms = none ↔ ∀ m ∈ ms, 0 ≤ m.Version := by
  induction ms with
  | nil => simp [isInvalidVersion]
  | cons m rest ih =>
    by_cases h : m.Version < 0
    · simp [isInvalidVersion, h]
    · simp [isInvalidVersion, h, ih, not_lt.mp h]

theorem isInvalidVersion_some {ms : List Migration} {v : ℚ}
    (h : isInvalidVersion ms = some v) :
    v < 0 ∧ v ∈ ms.map (fun m => m.Version) := by
  induction ms with
  | nil => simp [isInvalidVersion] at h
  | cons m rest ih =>
    by_cases hm : m.Version < 0
    · simp only [isInvalidVersion, if_pos hm, Option.some.injEq] at h
      subst h
      exact ⟨hm, by simp⟩
    · simp only [isInvalidVersion, if_neg hm] at h
      rcases ih h with ⟨h1, h2⟩
      exact ⟨h1, by simp [h2]⟩

theorem isDuplicatedAux_eq_none {ms : List Migration} {seen : List ℚ} :
    isDuplicatedAux seen ms = none ↔
      (ms.map (fun m => m.Version)).Nodup ∧ ∀ m ∈ ms, m.Version ∉ seen := by
  induction ms generalizing seen with
  | nil => simp [isDuplicatedAux]
  | cons m rest ih =>
    by_cases h : m.Version ∈ seen
    · simp [isDuplicatedAux, h]
    · simp only [isDuplicatedAux, if_neg h, ih, List.map_cons, List.nodup_cons,
        List.mem_cons, List.mem_map]
      constructor
      · rintro ⟨hnd, hseen⟩
        refine ⟨⟨fun hc => ?_, hnd⟩, ?_⟩
        · rcases hc with ⟨x, hx, hvx⟩
          exact (hseen x hx) (Or.inl hvx)
        · rintro x (rfl | hx)
          · exact h
          · intro hc
            exact hseen x hx (Or.inr hc)
      · rintro ⟨⟨hm, hnd⟩, hseen⟩
        refine ⟨hnd, fun x hx => ?_⟩
        rintro (hc | hc)
        · exact hm ⟨x, hx, hc⟩
        · exact hseen x (Or.inr hx) hc

theorem isDuplicated_eq_none {ms : List Migration} :
    isDuplicated ms = none ↔ (ms.map (fun m => m.Version)).Nodup := by
  simp [isDuplicated, isDuplicatedAux_eq_none]

theorem isDuplicatedAux_some {ms : List Migration} {seen : List ℚ} {v : ℚ}
    (h : isDuplicatedAux seen ms = some v) :
    2 ≤ seen.count v + (ms.map (fun m => m.Version)).count v := by
  induction ms generalizing seen with
  | nil => simp [isDuplicatedAux] at h
  | cons m rest ih =>
    by_cases hm : m.Version ∈ seen
    · simp only [isDuplicatedAux, if_pos hm, Option.some.injEq] at h
      subst h
      have h1 : 0 < seen.count m.Version := List.count_pos_iff.mpr hm
      have h2 : 0 < ((m :: rest).map (fun m => m.Version)).count m.Version := by
        refine List.count_pos_iff.mpr ?_
        simp
      omega
    · simp only [isDuplicatedAux, if_neg hm] at h
      have := ih h
      rw [List.count_cons] at this
      rw [List.map_cons, List.count_cons]
      by_cases hv : m.Version = v <;> simp [hv] at this ⊢ <;> omega

theorem isDuplicated_some {ms : List Migration} {v : ℚ}
    (h : isDuplicated ms = some v) :
    2 ≤ (ms.map (fun m => m.Version)).count v := by
  have := isDuplicatedAux_some h
  simpa using this

theorem wasRemovedMigration_eq_find (applied : List MigrationRecord)
    (ms : List Migration) :
    wasRemovedMigration applied ms =
      (applied.find? (fun r => ! ms.any (fun m => m.Version = r.Version))).map
        (fun r => r.Version) := by
  unfold wasRemovedMigration
  cases applied.find? (fun r => ! ms.any (fun m => m.Version = r.Version)) <;> rfl

theorem wasRemovedMigration_eq_none {applied : List MigrationRecord}
    {ms : List Migration} :
    wasRemovedMigration applied ms = none ↔
      ∀ r ∈ applied, ∃ m ∈ ms, m.Version = r.Version := by
  rw [wasRemovedMigration_eq_find, Option.map_eq_none', List.find?_eq_none]
  constructor
  · intro h r hr
    have := h r hr
    simpa using this
  · intro h r hr
    have := h r hr
    simpa using this

theorem wasRemovedMigration_some {applied : List MigrationRecord}
    {ms : List Migration} {v : ℚ}
    (h : wasRemovedMigration applied ms = some v) :
    v ∈ applied.map (fun r => r.Version) ∧ ∀ m ∈ ms, m.Version ≠ v := by
  rw [wasRemovedMigration_eq_find, Option.map_eq_some'] at h
  rcases h with ⟨r, hfind, hv⟩
  subst hv
  have hp := List.find?_some hfind
  have hmem := List.mem_of_find?_eq_some hfind
  refine ⟨List.mem_map.mpr ⟨r, hmem, rfl⟩, fun m hm => ?_⟩
  simp only [Bool.not_eq_eq_eq_not, Bool.not_true, List.any_eq_false,
    decide_eq_true_eq] at hp
  exact hp m hm

theorem wasRemovedMigration_isSome {applied : List MigrationRecord}
    {ms : List Migration} {r : MigrationRecord}
    (hr : r ∈ applied) (hno : ∀ m ∈ ms, m.Version ≠ r.Version) :
    ∃ v, wasRemovedMigration applied ms = some v := by
  cases hwr : wasRemovedMigration applied ms with
  | some v => exact ⟨v, rfl⟩
  | none =>
    rcases wasRemovedMigration_eq_none.mp hwr r hr with ⟨m, hm, hv⟩
    exact absurd hv (hno m hm)

theorem foldl_lastRecord (v : ℚ) (acc : Option MigrationRecord)
    (l : List MigrationRecord) :
    l.foldl (fun acc r => if r.Version = v then some r else acc) acc =
      match l.reverse.find? (fun r => r.Version = v) with
      | some r => some r
      | none => acc := by
  induction l generalizing acc with
  | nil => simp
  | cons a t ih =>
    rw [List.foldl_cons, ih, List.reverse_cons, List.find?_append]
    cases ht : t.reverse.find? (fun r => decide (r.Version = v)) with
    | some r => rfl
    | none =>
      by_cases hv : a.Version = v <;> simp [List.find?, hv]

theorem lastRecordFor_eq_find (applied : List MigrationRecord) (v : ℚ) :
    lastRecordFor applied v = applied.reverse.find? (fun r => r.Version = v) := by
  rw [lastRecordFor, foldl_lastRecord]
  cases applied.reverse.find? (fun r => decide (r.Version = v)) <;> rfl

theorem lastRecordFor_some {applied : List MigrationRecord} {v : ℚ}
    {r : MigrationRecord} (h : lastRecordFor applied v = some r) :
    r ∈ applied ∧ r.Version = v := by
  rw [lastRecordFor_eq_find] at h
  have h1 := List.mem_of_find?_eq_some h
  have h2 := List.find?_some h
  exact ⟨List.mem_reverse.mp h1, by simpa using h2⟩

theorem lastRecordFor_eq_none {applied : List MigrationRecord} {v : ℚ} :
    lastRecordFor applied v = none ↔ ∀ r ∈ applied, r.Version ≠ v := by
  rw [lastRecordFor_eq_find, List.find?_eq_none]
  constructor <;> intro h r hr
  · simpa using h r (List.mem_reverse.mpr hr)
  · simpa using h r (List.mem_reverse.mp hr)

theorem lastRecordFor_isSome {applied : List MigrationRecord} {v : ℚ}
    {r : MigrationRecord} (hr : r ∈ applied) (hv : r.Version = v) :
    ∃ q, lastRecordFor applied v = some q := by
  cases hq : lastRecordFor applied v with
  | some q => exact ⟨q, rfl⟩
  | none => exact absurd hv (lastRecordFor_eq_none.mp hq r hr)

/-- When record versions are unique (the bookkeeping table's `UNIQUE
(version)` constraint), the Go `versionMap` lookup is the one record with
that version. -/
theorem lastRecordFor_nodup {applied : List MigrationRecord} {v : ℚ}
    {r : MigrationRecord}
    (hnd : (applied.map (fun r => r.Version)).Nodup)
    (hr : r ∈ applied) (hv : r.Version = v) :
    lastRecordFor applied v = some r := by
  rcases lastRecordFor_isSome hr hv with ⟨q, hq⟩
  rcases lastRecordFor_some hq with ⟨hqmem, hqv⟩
  have : q = r := List.inj_on_of_nodup_map hnd hqmem hr (by rw [hqv, hv])
  rw [hq, this]

theorem lastRecordFor_append (a b : List MigrationRecord) (v : ℚ) :
    lastRecordFor (a ++ b) v =
      match lastRecordFor b v with
      | some r => some r
      | none => lastRecordFor a v := by
  simp only [lastRecordFor_eq_find, List.reverse_append, List.find?_append]
  cases b.reverse.find? (fun r => decide (r.Version = v)) <;> rfl

theorem isInvalidChecksumMigration_eq_none {applied : List MigrationRecord}
    {ms : List Migration} :
    isInvalidChecksumMigration applied ms = none ↔
      ∀ m ∈ ms, ∀ r, lastRecordFor applied m.Version = some r →
        r.Checksum = m.Checksum := by
  induction ms with
  | nil => simp [isInvalidChecksumMigration]
  | cons m rest ih =>
    cases hl : lastRecordFor applied m.Version with
    | none =>
      simp only [isInvalidChecksumMigration, hl, ih, List.mem_cons]
      constructor
      · rintro h x (rfl | hx) r hr
        · rw [hl] at hr; exact Option.noConfusion hr
        · exact h x hx r hr
      · intro h x hx r hr
        exact h x (Or.inr hx) r hr
    | some q =>
      by_cases hc : q.Checksum ≠ m.Checksum
      · simp only [isInvalidChecksumMigration, hl, if_pos hc]
        constructor
        · intro hcon; exact absurd hcon (by simp)
        · intro h
          exact absurd (h m (by simp) q hl) hc
      · simp only [isInvalidChecksumMigration, hl, if_neg hc, ih, List.mem_cons]
        push_neg at hc
        constructor
        · rintro h x (rfl | hx) r hr
          · rw [hl] at hr
            injection hr with hr
            rw [← hr]
            exact hc
          · exact h x hx r hr
        · intro h x hx r hr
          exact h x (Or.inr hx) r hr

theorem isInvalidChecksumMigration_some {applied : List MigrationRecord}
    {ms : List Migration} {v : ℚ}
    (h : isInvalidChecksumMigration applied ms = some v) :
    ∃ m ∈ ms, ∃ r, lastRecordFor applied m.Version = some r ∧
      r.Checksum ≠ m.Checksum ∧ m.Version = v := by
  induction ms with
  | nil => simp [isInvalidChecksumMigration] at h
  | cons m rest ih =>
    cases hl : lastRecordFor applied m.Version with
    | none =>
      simp only [isInvalidChecksumMigration, hl] at h
      rcases ih h with ⟨x, hx, r, hr, hcs, hv⟩
      exact ⟨x, List.mem_cons_of_mem m hx, r, hr, hcs, hv⟩
    | some q =>
      by_cases hc : q.Checksum ≠ m.Checksum
      · simp only [isInvalidChecksumMigration, hl, if_pos hc,
          Option.some.injEq] at h
        exact ⟨m, List.mem_cons_self m rest, q, hl, hc, h⟩
      · simp only [isInvalidChecksumMigration, hl, if_neg hc] at h
        rcases ih h with ⟨x, hx, r, hr, hcs, hv⟩
        exact ⟨x, List.mem_cons_of_mem m hx, r, hr, hcs, hv⟩

theorem isInvalidChecksumMigration_ne_none {applied : List MigrationRecord}
    {ms : List Migration}
    (hex : ∃ m ∈ ms, ∃ r, lastRecordFor applied m.Version = some r ∧
      r.Checksum ≠ m.Checksum) :
    ∃ v, isInvalidChecksumMigration applied ms = some v := by
  cases hq : isInvalidChecksumMigration applied ms with
  | some v => exact ⟨v, rfl⟩
  | none =>
    rcases hex with ⟨m, hm, r, hr, hcs⟩
    exact absurd (isInvalidChecksumMigration_eq_none.mp hq m hm r hr) hcs

/-- When every mismatching migration has version `v`, the checksum scan
reports exactly `v`. -/
theorem isInvalidChecksumMigration_unique {applied : List MigrationRecord}
    {ms : List Migration} {v : ℚ}
    (hex : ∃ m ∈ ms, ∃ r, lastRecordFor applied m.Version = some r ∧
      r.Checksum ≠ m.Checksum)
    (huni : ∀ m ∈ ms, ∀ r, lastRecordFor applied m.Version = some r →
      r.Checksum ≠ m.Checksum → m.Version = v) :
    isInvalidChecksumMigration applied ms = some v := by
  induction ms with
  | nil => rcases hex with ⟨m, hm, _⟩; cases hm
  | cons m rest ih =>
    cases hl : lastRecordFor applied m.Version with
    | none =>
      simp only [isInvalidChecksumMigration, hl]
      apply ih
      · rcases hex with ⟨x, hx, r, hr, hcs⟩
        rcases List.mem_cons.mp hx with rfl | hx'
        · rw [hl] at hr; exact Option.noConfusion hr
        · exact ⟨x, hx', r, hr, hcs⟩
      · intro x hx r hr hcs
        exact huni x (List.mem_cons_of_mem m hx) r hr hcs
    | some q =>
      by_cases hc : q.Checksum ≠ m.Checksum
      · simp only [isInvalidChecksumMigration, hl, if_pos hc, Option.some.injEq]
        exact huni m (List.mem_cons_self m rest) q hl hc
      · simp only [isInvalidChecksumMigration, hl, if_neg hc]
        push_neg at hc
        apply ih
        · rcases hex with ⟨x, hx, r, hr, hcs⟩
          rcases List.mem_cons.mp hx with rfl | hx'
          · rw [hl] at hr
            injection hr with hr
            rw [hr] at hc
            exact absurd hc hcs
          · exact ⟨x, hx', r, hr, hcs⟩
        · intro x hx r hr hcs
          exact huni x (List.mem_cons_of_mem m hx) r hr hcs

/-! ## Helper lemmas: the `validateSorted` chain -/

theorem validateSorted_eq_none {applied : List MigrationRecord}
    {ms : List Migration} :
    validateSorted applied ms = none ↔
      isInvalidVersion ms = none ∧ isDuplicated ms = none ∧
      wasRemovedMigration applied ms = none ∧
      isInvalidChecksumMigration applied ms = none := by
  unfold validateSorted
  cases isInvalidVersion ms with
  | some v => simp
  | none =>
    cases isDuplicated ms with
    | some v => simp
    | none =>
      cases wasRemovedMigration applied ms with
      | some v => simp
      | none =>
        cases isInvalidChecksumMigration applied ms with
        | some v => simp
        | none => simp

theorem validateSorted_illegal {applied : List MigrationRecord}
    {ms : List Migration} {v : ℚ} (h : isInvalidVersion ms = some v) :
    validateSorted applied ms = some (.IllegalMigrationVersion v) := by
  unfold validateSorted
  rw [h]

theorem validateSorted_dup {applied : List MigrationRecord}
    {ms : List Migration} {v : ℚ}
    (h1 : isInvalidVersion ms = none) (h2 : isDuplicated ms = some v) :
    validateSorted applied ms = some (.DuplicateMigrationVersion v) := by
  unfold validateSorted
  rw [h1, h2]

theorem validateSorted_removed {applied : List MigrationRecord}
    {ms : List Migration} {v : ℚ}
    (h1 : isInvalidVersion ms = none) (h2 : isDuplicated ms = none)
    (h3 : wasRemovedMigration applied ms = some v) :
    validateSorted applied ms = some (.RemovedMigration v) := by
  unfold validateSorted
  rw [h1, h2, h3]

theorem validateSorted_checksum {applied : List MigrationRecord}
    {ms : List Migration} {v : ℚ}
    (h1 : isInvalidVersion ms = none) (h2 : isDuplicated ms = none)
    (h3 : wasRemovedMigration applied ms = none)
    (h4 : isInvalidChecksumMigration applied ms = some v) :
    validateSorted applied ms = some (.InvalidChecksum v) := by
  unfold validateSorted
  rw [h1, h2, h3, h4]

/-! ## Helper lemmas: the planner and the apply loop -/

theorem planMigration_nil (ms : List Migration) : planMigration [] ms = ms := by
  unfold planMigration
  rw [show sortRecordsDesc [] = [] from sortRecordsDesc_eq_nil.mpr rfl]

theorem planMigration_eq_match (recs : List MigrationRecord)
    (ms : List Migration) :
    planMigration recs ms =
      match sortRecordsDesc recs with
      | [] => ms
      | last :: _ =>
        sortMigrations (ms.filter (fun m => m.Version > last.Version)) := by
  unfold planMigration
  cases sortRecordsDesc recs <;> rfl

theorem planMigration_mem {recs : List MigrationRecord} {ms : List Migration}
    {m : Migration} (h : m ∈ planMigration recs ms) : m ∈ ms := by
  unfold planMigration at h
  cases hs : sortRecordsDesc recs with
  | nil => rw [hs] at h; exact h
  | cons last t =>
    rw [hs] at h
    exact (List.mem_filter.mp (mem_sortMigrations.mp h)).1

theorem planMigration_nodup {recs : List MigrationRecord} {ms : List Migration}
    (hnd : (ms.map (fun m => m.Version)).Nodup) :
    ((planMigration recs ms).map (fun m => m.Version)).Nodup := by
  unfold planMigration
  cases hs : sortRecordsDesc recs with
  | nil => exact hnd
  | cons last t =>
    have hperm := (sortMigrations_perm
      (ms.filter (fun m => m.Version > last.Version))).map (fun m => m.Version)
    rw [hperm.nodup_iff]
    exact ((List.filter_sublist ms).map (fun m => m.Version)).nodup hnd

/-- Every planned migration's version is fresh with respect to the records:
the plan only contains migrations strictly above the high-water mark. -/
theorem planMigration_fresh {recs : List MigrationRecord} {ms : List Migration}
    {m : Migration} (h : m ∈ planMigration recs ms) :
    ∀ r ∈ recs, r.Version ≠ m.Version := by
  unfold planMigration at h
  cases hs : sortRecordsDesc recs with
  | nil =>
    intro r hr
    have : recs = [] := sortRecordsDesc_eq_nil.mp hs
    rw [this] at hr
    cases hr
  | cons last t =>
    rw [hs] at h
    have hgt : m.Version > last.Version := by
      have := (List.mem_filter.mp (mem_sortMigrations.mp h)).2
      simpa using this
    intro r hr
    have hle : r.Version ≤ last.Version := (sortRecordsDesc_head_max hs).2 r hr
    exact ne_of_lt (lt_of_le_of_lt hle hgt)

theorem insertRecord_eq_some {recs recs' : List MigrationRecord}
    {r : MigrationRecord} (h : insertRecord recs r = some recs') :
    recs' = recs ++ [r] := by
  unfold insertRecord at h
  by_cases hc : recs.any (fun q => q.Version = r.Version) = true
  · rw [if_pos hc] at h; cases h
  · rw [if_neg hc] at h
    injection h with h
    exact h.symm

theorem insertRecord_fresh {recs : List MigrationRecord} {r : MigrationRecord}
    (h : ∀ q ∈ recs, q.Version ≠ r.Version) :
    insertRecord recs r = some (recs ++ [r]) := by
  unfold insertRecord
  rw [if_neg]
  simp only [List.any_eq_true, decide_eq_true_eq, not_exists]
  intro q
  by_cases hq : q ∈ recs
  · simp [hq, h q hq]
  · simp [hq]

/-- The apply loop when every migration in the list executes and inserts
successfully: all records are appended in order, every script is executed,
and no error is returned. -/
theorem migrateLoop_success (f : GoStr → Option Nat) (now : Nat)
    (recs : List MigrationRecord) (L : List Migration)
    (hexec : ∀ m ∈ L, f m.Script ≠ none)
    (hfresh : ∀ m ∈ L, ∀ r ∈ recs, r.Version ≠ m.Version)
    (hnd : (L.map (fun m => m.Version)).Nodup) :
    migrateLoop f now recs L =
      (recs ++ L.map (fun m => mkRecord m ((f m.Script).getD 0) now),
       L.map (fun m => m.Script), none) := by
  induction L generalizing recs with
  | nil => simp [migrateLoop]
  | cons m rest ih =>
    rcases Option.ne_none_iff_exists'.mp (hexec m (List.mem_cons_self m rest))
      with ⟨d0, hd0⟩
    have hins : insertRecord recs (mkRecord m d0 now) =
        some (recs ++ [mkRecord m d0 now]) :=
      insertRecord_fresh (fun q hq => hfresh m (List.mem_cons_self m rest) q hq)
    have hrest : migrateLoop f now (recs ++ [mkRecord m d0 now]) rest =
        (recs ++ [mkRecord m d0 now] ++
           rest.map (fun m => mkRecord m ((f m.Script).getD 0) now),
         rest.map (fun m => m.Script), none) := by
      apply ih
      · intro x hx
        exact hexec x (List.mem_cons_of_mem m hx)
      · intro x hx q hq
        rcases List.mem_append.mp hq with hq' | hq'
        · exact hfresh x (List.mem_cons_of_mem m hx) q hq'
        · rcases List.mem_singleton.mp hq' with rfl
          show m.Version ≠ x.Version
          intro hc
          rw [List.map_cons, List.nodup_cons] at hnd
          exact hnd.1 (hc ▸ List.mem_map.mpr ⟨x, hx, rfl⟩)
      · rw [List.map_cons, List.nodup_cons] at hnd
        exact hnd.2
    simp only [migrateLoop, hd0, hins, hrest]
    simp [List.map_cons, hd0, List.append_assoc]

/-- The apply loop when the head segment succeeds and migration `mN` then
fails to execute: the records for the successful segment are kept, `mN` is
executed but not recorded, nothing after `mN` is executed, and the `Exec`
error is returned. -/
theorem migrateLoop_fail (f : GoStr → Option Nat) (now : Nat)
    (recs : List MigrationRecord) (pre post : List Migration) (mN : Migration)
    (hexec : ∀ m ∈ pre, f m.Script ≠ none)
    (hfresh : ∀ m ∈ pre, ∀ r ∈ recs, r.Version ≠ m.Version)
    (hnd : (pre.map (fun m => m.Version)).Nodup)
    (hfail : f mN.Script = none) :
    migrateLoop f now recs (pre ++ mN :: post) =
      (recs ++ pre.map (fun m => mkRecord m ((f m.Script).getD 0) now),
       pre.map (fun m => m.Script) ++ [mN.Script],
       some (.ExecFailed mN.Script)) := by
  induction pre generalizing recs with
  | nil => simp [migrateLoop, hfail]
  | cons m rest ih =>
    rcases Option.ne_none_iff_exists'.mp (hexec m (List.mem_cons_self m rest))
      with ⟨d0, hd0⟩
    have hins : insertRecord recs (mkRecord m d0 now) =
        some (recs ++ [mkRecord m d0 now]) :=
      insertRecord_fresh (fun q hq => hfresh m (List.mem_cons_self m rest) q hq)
    have hrest : migrateLoop f now (recs ++ [mkRecord m d0 now]) (rest ++ mN :: post) =
        (recs ++ [mkRecord m d0 now] ++
           rest.map (fun m => mkRecord m ((f m.Script).getD 0) now),
         rest.map (fun m => m.Script) ++ [mN.Script],
         some (.ExecFailed mN.Script)) := by
      apply ih
      · intro x hx
        exact hexec x (List.mem_cons_of_mem m hx)
      · intro x hx q hq
        rcases List.mem_append.mp hq with hq' | hq'
        · exact hfresh x (List.mem_cons_of_mem m hx) q hq'
        · rcases List.mem_singleton.mp hq' with rfl
          show m.Version ≠ x.Version
          intro hc
          rw [List.map_cons, List.nodup_cons] at hnd
          exact hnd.1 (hc ▸ List.mem_map.mpr ⟨x, hx, rfl⟩)
      · rw [List.map_cons, List.nodup_cons] at hnd
        exact hnd.2
    simp only [List.cons_append, migrateLoop, hd0, hins, hrest]
    simp [hrest, List.map_cons, hd0, List.append_assoc]

/-- If the apply loop returns no error, the final table is the input table
with one record per migration appended in order. -/
theorem migrateLoop_none (f : GoStr → Option Nat) (now : Nat)
    (recs : List MigrationRecord) (L : List Migration)
    (h : (migrateLoop f now recs L).2.2 = none) :
    (migrateLoop f now recs L).1 =
      recs ++ L.map (fun m => mkRecord m ((f m.Script).getD 0) now) := by
  induction L generalizing recs with
  | nil => simp [migrateLoop]
  | cons m rest ih =>
    cases hd0 : f m.Script with
    | none => simp [migrateLoop, hd0] at h
    | some d0 =>
      cases hins : insertRecord recs (mkRecord m d0 now) with
      | none => simp [migrateLoop, hd0, hins] at h
      | some recs' =>
        simp only [migrateLoop, hd0, hins] at h ⊢
        rw [ih recs' h, insertRecord_eq_some hins]
        simp [List.map_cons, hd0, List.append_assoc]

/-! ## Helper lemmas: the parser -/

/-- Claim C1 (the code violates the claim): with no applied records and a
non-empty migration list, `Info` does not succeed with every status
`Pending` — there is no empty-history short-circuit in the code, and
`getStatus` indexes `inDatabase[0]` on the empty slice, a runtime panic
(modelled as `none`). -/
theorem C1_info_empty_history_panics (f : GoStr → Option Nat)
    (m : Migration) (rest : List Migration) :
    Info { records := [], execF := f } (m :: rest) = none := by
  simp [Info, sortRecordsDesc, getStatus, List.mapM.loop]

/-- Claim C2, counterexample: with an empty record list and migrations
supplied in descending order, `planMigration` returns them unsorted, so its
output is not strictly ascending by version for every input. -/
theorem C2_planMigration_counterexample :
    planMigration []
        [{ Version := 2, Description := [], Script := [] },
         { Version := 1, Description := [], Script := [] }] =
      [{ Version := 2, Description := [], Script := [] },
       { Version := 1, Description := [], Script := [] }] ∧
    ¬ List.Chain' (fun a b : Migration => a.Version < b.Version)
        (planMigration []
          [{ Version := 2, Description := [], Script := [] },
           { Version := 1, Description := [], Script := [] }]) := by
  constructor
  · exact planMigration_nil _
  · rw [planMigration_nil]
    intro h
    rw [List.chain'_cons] at h
    have h2 : (2 : ℚ) < 1 := h.1
    norm_num at h2

/-- Claim C2, amended: with no records the plan is the entire migration list
in the order supplied (ascending only when the caller pre-sorted it, as
`Migrate` does via `Validate`); with at least one record the plan is sorted
ascending by version regardless of supply order, strictly so when the
migration versions are pairwise distinct. -/
theorem C2_planMigration_sorted (recs : List MigrationRecord)
    (ms : List Migration) :
    planMigration [] ms = ms ∧
    (recs ≠ [] →
      List.Pairwise (fun a b : Migration => a.Version ≤ b.Version)
        (planMigration recs ms)) ∧
    (recs ≠ [] → (ms.map (fun m => m.Version)).Nodup →
      List.Chain' (fun a b : Migration => a.Version < b.Version)
        (planMigration recs ms)) := by
  have hple : recs ≠ [] →
      List.Pairwise (fun a b : Migration => a.Version ≤ b.Version)
        (planMigration recs ms) := by
    intro hne
    unfold planMigration
    cases hs : sortRecordsDesc recs with
    | nil => exact absurd (sortRecordsDesc_eq_nil.mp hs) hne
    | cons last t => exact sortMigrations_pairwise _
  refine ⟨planMigration_nil ms, hple, ?_⟩
  intro hne hnd
  have hpne : List.Pairwise (fun a b : Migration => a.Version ≠ b.Version)
      (planMigration recs ms) :=
    List.pairwise_map.mp (planMigration_nodup hnd)
  exact (((hple hne).and hpne).imp (fun h => lt_of_le_of_ne h.1 h.2)).chain'

/-- Witness for the amended C2 at a concrete input. -/
theorem C2_planMigration_sorted_witness :
    List.Chain' (fun a b : Migration => a.Version < b.Version)
      (planMigration
        [{ Version := 1, Description := [], Checksum := [], AppliedAt := 0,
           ExecutionTime := 0 }]
        [{ Version := 3, Description := [], Script := [] },
         { Version := 2, Description := [], Script := [] }]) :=
  (C2_planMigration_sorted
    [{ Version := 1, Description := [], Checksum := [], AppliedAt := 0,
       ExecutionTime := 0 }]
    [{ Version := 3, Description := [], Script := [] },
     { Version := 2, Description := [], Script := [] }]).2.2
    (by decide) (by decide)

/-- Claim C3 (the code violates the claim): the zero-space version form does
not yield the same version as the one-space and literal forms.  The raw
slice `v[11:]` drops the first payload byte of `--version:1.0`, so it
parses as `.0` = 0, while `-- version:1.0` and `-- Version: 1.0` parse
as 1. -/
theorem C3_zero_space_version_line_mismatch :
    ParseMigrations "--version:1.0\nSELECT 1;" =
      .ok [{ Version := 0, Description := [], Script := strBytes "SELECT 1;\n" }] ∧
    ParseMigrations "-- version:1.0\nSELECT 1;" =
      .ok [{ Version := 1, Description := [], Script := strBytes "SELECT 1;\n" }] ∧
    ParseMigrations "-- Version: 1.0\nSELECT 1;" =
      .ok [{ Version := 1, Description := [], Script := strBytes "SELECT 1;\n" }] := by
  refine ⟨?_, ?_, ?_⟩ <;> decide

/-- Claim C9: `ParseMigrations` is not total: a line passing the
version-marker prefix test but shorter than the fixed slice offset 11
(`--version:`, 10 bytes), or a description marker shorter than offset 15
(`--description:`, 14 bytes), makes the function panic with an
out-of-range index instead of returning a parse result. -/
theorem C9_parse_short_marker_panics :
    ParseMigrations "--version:" = .panicked ∧
    ParseMigrations "--description:" = .panicked := by
  constructor <;> rfl

/-- Claim C10: `Validate` sorts the caller-supplied slice in place as its
first step (ascending by version) and `Migrate` does the same through its
call to `Validate`: the caller-visible slice afterwards is the ascending
reordering of the original elements — a permutation, every element's
fields unchanged. -/
theorem C10_validate_sorts_in_place (d : DriverState) (now : Nat)
    (ms : List Migration) :
    (Validate d ms).1 = sortMigrations ms ∧
    (Migrate d now ms).callerSlice = sortMigrations ms ∧
    (sortMigrations ms).Perm ms ∧
    List.Pairwise (fun a b : Migration => a.Version ≤ b.Version)
      (sortMigrations ms) := by
  refine ⟨rfl, ?_, sortMigrations_perm ms, sortMigrations_pairwise ms⟩
  unfold Migrate
  cases validateSorted d.records (sortMigrations ms) <;> rfl

theorem Validate_snd (d : DriverState) (ms : List Migration) :
    (Validate d ms).2 = validateSorted d.records (sortMigrations ms) := rfl

/-- Claim C5: `Validate` performs its checks in a fixed order, short-circuiting
at the first failure: a negative version yields
`IllegalMigrationVersionError`; otherwise a duplicated version yields
`DuplicateMigrationVersionError`; otherwise an applied record with no
matching migration version yields `RemovedMigrationError`; otherwise an
applied record whose stored checksum differs from its migration's computed
checksum yields `InvalidChecksumError`; otherwise `Validate` succeeds. -/
theorem C5_validate_check_order (d : DriverState) (ms : List Migration) :
    ((∃ m ∈ ms, m.Version < 0) →
      ∃ v, (Validate d ms).2 = some (.IllegalMigrationVersion v) ∧
        v < 0 ∧ v ∈ ms.map (fun m => m.Version)) ∧
    ((∀ m ∈ ms, 0 ≤ m.Version) → ¬ (ms.map (fun m => m.Version)).Nodup →
      ∃ v, (Validate d ms).2 = some (.DuplicateMigrationVersion v) ∧
        2 ≤ (ms.map (fun m => m.Version)).count v) ∧
    ((∀ m ∈ ms, 0 ≤ m.Version) → (ms.map (fun m => m.Version)).Nodup →
      (∃ r ∈ d.records, ∀ m ∈ ms, m.Version ≠ r.Version) →
      ∃ v, (Validate d ms).2 = some (.RemovedMigration v) ∧
        v ∈ d.records.map (fun r => r.Version) ∧ ∀ m ∈ ms, m.Version ≠ v) ∧
    ((∀ m ∈ ms, 0 ≤ m.Version) → (ms.map (fun m => m.Version)).Nodup →
      (∀ r ∈ d.records, ∃ m ∈ ms, m.Version = r.Version) →
      (d.records.map (fun r => r.Version)).Nodup →
      (∃ m ∈ ms, ∃ r ∈ d.records, r.Version = m.Version ∧
        r.Checksum ≠ m.Checksum) →
      ∃ v, (Validate d ms).2 = some (.InvalidChecksum v) ∧
        ∃ m ∈ ms, ∃ r ∈ d.records, r.Version = m.Version ∧
          r.Checksum ≠ m.Checksum ∧ m.Version = v) ∧
    ((∀ m ∈ ms, 0 ≤ m.Version) → (ms.map (fun m => m.Version)).Nodup →
      (∀ r ∈ d.records, ∃ m ∈ ms, m.Version = r.Version) →
      (∀ m ∈ ms, ∀ r ∈ d.records, r.Version = m.Version →
        r.Checksum = m.Checksum) →
      (Validate d ms).2 = none) := by
  have hperm := sortMigrations_perm ms
  have hmp := hperm.map (fun m => m.Version)
  refine ⟨?_, ?_, ?_, ?_, ?_⟩
  · rintro ⟨m, hm, hneg⟩
    have hm' : m ∈ sortMigrations ms := mem_sortMigrations.mpr hm
    have hnone : ¬ isInvalidVersion (sortMigrations ms) = none := by
      intro hc
      exact absurd hneg (not_lt.mpr (isInvalidVersion_eq_none.mp hc m hm'))
    rcases Option.ne_none_iff_exists'.mp hnone with ⟨v, hv⟩
    rcases isInvalidVersion_some hv with ⟨h1, h2⟩
    exact ⟨v, by rw [Validate_snd]; exact validateSorted_illegal hv, h1,
      hmp.mem_iff.mp h2⟩
  · intro hpos hdup
    have h1 : isInvalidVersion (sortMigrations ms) = none :=
      isInvalidVersion_eq_none.mpr (fun m hm => hpos m (mem_sortMigrations.mp hm))
    have h2 : ¬ isDuplicated (sortMigrations ms) = none := by
      intro hc
      exact hdup (hmp.nodup_iff.mp (isDuplicated_eq_none.mp hc))
    rcases Option.ne_none_iff_exists'.mp h2 with ⟨v, hv⟩
    refine ⟨v, by rw [Validate_snd]; exact validateSorted_dup h1 hv, ?_⟩
    have := isDuplicated_some hv
    rwa [hmp.count_eq] at this
  · rintro hpos hnd ⟨r, hr, hno⟩
    have h1 : isInvalidVersion (sortMigrations ms) = none :=
      isInvalidVersion_eq_none.mpr (fun m hm => hpos m (mem_sortMigrations.mp hm))
    have h2 : isDuplicated (sortMigrations ms) = none :=
      isDuplicated_eq_none.mpr (hmp.nodup_iff.mpr hnd)
    rcases wasRemovedMigration_isSome hr
        (fun m hm => hno m (mem_sortMigrations.mp hm)) with ⟨v, hv⟩
    rcases wasRemovedMigration_some hv with ⟨hvmem, hvno⟩
    exact ⟨v, by rw [Validate_snd]; exact validateSorted_removed h1 h2 hv, hvmem,
      fun m hm => hvno m (mem_sortMigrations.mpr hm)⟩
  · rintro hpos hnd hsub hrnd ⟨m, hm, r, hr, hveq, hcs⟩
    have h1 : isInvalidVersion (sortMigrations ms) = none :=
      isInvalidVersion_eq_none.mpr (fun x hx => hpos x (mem_sortMigrations.mp hx))
    have h2 : isDuplicated (sortMigrations ms) = none :=
      isDuplicated_eq_none.mpr (hmp.nodup_iff.mpr hnd)
    have h3 : wasRemovedMigration d.records (sortMigrations ms) = none := by
      rw [wasRemovedMigration_eq_none]
      intro q hq
      rcases hsub q hq with ⟨x, hx, hxv⟩
      exact ⟨x, mem_sortMigrations.mpr hx, hxv⟩
    have hlast : lastRecordFor d.records m.Version = some r :=
      lastRecordFor_nodup hrnd hr hveq
    have hex : ∃ x ∈ sortMigrations ms, ∃ q,
        lastRecordFor d.records x.Version = some q ∧ q.Checksum ≠ x.Checksum :=
      ⟨m, mem_sortMigrations.mpr hm, r, hlast, hcs⟩
    rcases isInvalidChecksumMigration_ne_none hex with ⟨v, hv⟩
    rcases isInvalidChecksumMigration_some hv with ⟨x, hx, q, hq, hqcs, hxv⟩
    rcases lastRecordFor_some hq with ⟨hqmem, hqv⟩
    exact ⟨v, by rw [Validate_snd]; exact validateSorted_checksum h1 h2 h3 hv,
      x, mem_sortMigrations.mp hx, q, hqmem, hqv, hqcs, hxv⟩
  · intro hpos hnd hsub hmatch
    rw [Validate_snd, validateSorted_eq_none]
    have h3 : wasRemovedMigration d.records (sortMigrations ms) = none := by
      rw [wasRemovedMigration_eq_none]
      intro q hq
      rcases hsub q hq with ⟨x, hx, hxv⟩
      exact ⟨x, mem_sortMigrations.mpr hx, hxv⟩
    refine ⟨isInvalidVersion_eq_none.mpr
        (fun x hx => hpos x (mem_sortMigrations.mp hx)),
      isDuplicated_eq_none.mpr (hmp.nodup_iff.mpr hnd), h3, ?_⟩
    rw [isInvalidChecksumMigration_eq_none]
    intro m hm r hr
    rcases lastRecordFor_some hr with ⟨hrmem, hrv⟩
    exact hmatch m (mem_sortMigrations.mp hm) r hrmem hrv

/-- Concrete driver states and migrations used by the witnesses. -/
def exD0 : DriverState := { records := [], execF := fun _ => none }

def exMneg : Migration := { Version := -1, Description := [], Script := [] }

def exM2a : Migration := { Version := 2, Description := [], Script := [] }

def exM2b : Migration := { Version := 2, Description := [], Script := [65] }

def exM1 : Migration := { Version := 1, Description := [], Script := [] }

def exR9 : MigrationRecord :=
  { Version := 9, Description := [], Checksum := [], AppliedAt := 0,
    ExecutionTime := 0 }

def exRbad : MigrationRecord :=
  { Version := 1, Description := [], Checksum := [], AppliedAt := 0,
    ExecutionTime := 0 }

def exRgood : MigrationRecord :=
  { Version := 1, Description := [], Checksum := exM1.Checksum, AppliedAt := 0,
    ExecutionTime := 0 }

def exD9 : DriverState := { records := [exR9], execF := fun _ => none }

def exDbad : DriverState := { records := [exRbad], execF := fun _ => none }

def exDgood : DriverState := { records := [exRgood], execF := fun _ => none }

/-- Witness for C5: each branch of the check order at a concrete state. -/
theorem C5_validate_check_order_witness :
    (∃ v, (Validate exD0 [exMneg]).2 = some (.IllegalMigrationVersion v)) ∧
    (∃ v, (Validate exD0 [exM2a, exM2b]).2 =
      some (.DuplicateMigrationVersion v)) ∧
    (∃ v, (Validate exD9 [exM1]).2 = some (.RemovedMigration v)) ∧
    (∃ v, (Validate exDbad [exM1]).2 = some (.InvalidChecksum v)) ∧
    (Validate exDgood [exM1]).2 = none := by
  refine ⟨?_, ?_, ?_, ?_, ?_⟩
  · rcases (C5_validate_check_order exD0 [exMneg]).1
      ⟨exMneg, by decide, by decide⟩ with ⟨v, hv, _⟩
    exact ⟨v, hv⟩
  · rcases (C5_validate_check_order exD0 [exM2a, exM2b]).2.1
      (by decide) (by decide) with ⟨v, hv, _⟩
    exact ⟨v, hv⟩
  · rcases (C5_validate_check_order exD9 [exM1]).2.2.1 (by decide) (by decide)
      ⟨exR9, by decide, by decide⟩ with ⟨v, hv, _⟩
    exact ⟨v, hv⟩
  · rcases (C5_validate_check_order exDbad [exM1]).2.2.2.1 (by decide)
      (by decide) (by decide) (by decide)
      ⟨exM1, by decide, exRbad, by decide, by decide, by decide⟩
      with ⟨v, hv, _⟩
    exact ⟨v, hv⟩
  · exact (C5_validate_check_order exDgood [exM1]).2.2.2.2 (by decide)
      (by decide) (by decide) (by decide)

/-- Claim C6: checksum sensitivity.  If `Validate` succeeds on a state where
the migration `m` (at any position) is applied and recorded, and `m`'s
script is replaced (version kept fixed) by `m'` whose recomputed checksum no
longer equals `m`'s (which `Validate`'s success made equal to the recorded
checksum), then the next `Validate` — and hence `Migrate`, which runs it
first — returns `InvalidChecksumError` for that version. -/
theorem C6_checksum_sensitivity (d : DriverState)
    (pre post : List Migration) (m m' : Migration)
    (hrnd : (d.records.map (fun r => r.Version)).Nodup)
    (h0 : (Validate d (pre ++ m :: post)).2 = none)
    (hv : m'.Version = m.Version)
    (happ : ∃ r ∈ d.records, r.Version = m.Version)
    (hcs : m'.Checksum ≠ m.Checksum) :
    (Validate d (pre ++ m' :: post)).2 = some (.InvalidChecksum m.Version) := by
  rw [Validate_snd] at h0 ⊢
  rw [validateSorted_eq_none] at h0
  obtain ⟨h1, h2, h3, h4⟩ := h0
  have hmap : (pre ++ m' :: post).map (fun x => x.Version) =
      (pre ++ m :: post).map (fun x => x.Version) := by
    simp [hv]
  have hperm := sortMigrations_perm (pre ++ m :: post)
  have hperm' := sortMigrations_perm (pre ++ m' :: post)
  have hmp := hperm.map (fun x : Migration => x.Version)
  have hmp' := hperm'.map (fun x : Migration => x.Version)
  have hpos : ∀ x ∈ pre ++ m :: post, 0 ≤ x.Version :=
    fun x hx => isInvalidVersion_eq_none.mp h1 x (mem_sortMigrations.mpr hx)
  have hmem' : m' ∈ pre ++ m' :: post :=
    List.mem_append.mpr (Or.inr (List.mem_cons_self _ _))
  have h1' : isInvalidVersion (sortMigrations (pre ++ m' :: post)) = none := by
    rw [isInvalidVersion_eq_none]
    intro x hx
    rcases List.mem_append.mp (mem_sortMigrations.mp hx) with hx' | hx'
    · exact hpos x (List.mem_append.mpr (Or.inl hx'))
    · rcases List.mem_cons.mp hx' with rfl | hx''
      · rw [hv]
        exact hpos m (List.mem_append.mpr (Or.inr (List.mem_cons_self _ _)))
      · exact hpos x (List.mem_append.mpr (Or.inr (List.mem_cons_of_mem _ hx'')))
  have hnd : ((pre ++ m :: post).map (fun x => x.Version)).Nodup :=
    hmp.nodup_iff.mp (isDuplicated_eq_none.mp h2)
  have h2' : isDuplicated (sortMigrations (pre ++ m' :: post)) = none := by
    rw [isDuplicated_eq_none]
    exact hmp'.nodup_iff.mpr (by rw [hmap]; exact hnd)
  have hsub : ∀ r ∈ d.records, ∃ x ∈ pre ++ m :: post, x.Version = r.Version := by
    intro r hr
    rcases wasRemovedMigration_eq_none.mp h3 r hr with ⟨x, hx, hxv⟩
    exact ⟨x, mem_sortMigrations.mp hx, hxv⟩
  have h3' : wasRemovedMigration d.records
      (sortMigrations (pre ++ m' :: post)) = none := by
    rw [wasRemovedMigration_eq_none]
    intro r hr
    rcases hsub r hr with ⟨x, hx, hxv⟩
    rcases List.mem_append.mp hx with hx' | hx'
    · exact ⟨x, mem_sortMigrations.mpr (List.mem_append.mpr (Or.inl hx')), hxv⟩
    · rcases List.mem_cons.mp hx' with rfl | hx''
      · exact ⟨m', mem_sortMigrations.mpr hmem', by rw [hv]; exact hxv⟩
      · exact ⟨x, mem_sortMigrations.mpr
          (List.mem_append.mpr (Or.inr (List.mem_cons_of_mem _ hx''))), hxv⟩
  have hmatch : ∀ x ∈ pre ++ m :: post, ∀ r,
      lastRecordFor d.records x.Version = some r → r.Checksum = x.Checksum :=
    fun x hx r hr => isInvalidChecksumMigration_eq_none.mp h4 x
      (mem_sortMigrations.mpr hx) r hr
  rcases happ with ⟨r0, hr0, hr0v⟩
  have hlast : lastRecordFor d.records m.Version = some r0 :=
    lastRecordFor_nodup hrnd hr0 hr0v
  have hr0cs : r0.Checksum = m.Checksum :=
    hmatch m (List.mem_append.mpr (Or.inr (List.mem_cons_self _ _))) r0 hlast
  have h4' : isInvalidChecksumMigration d.records
      (sortMigrations (pre ++ m' :: post)) = some m.Version := by
    apply isInvalidChecksumMigration_unique
    · refine ⟨m', mem_sortMigrations.mpr hmem', r0, ?_, ?_⟩
      · rw [hv]
        exact hlast
      · rw [hr0cs]
        exact fun hc => hcs hc.symm
    · intro x hx r hr hrcs
      rcases List.mem_append.mp (mem_sortMigrations.mp hx) with hx' | hx'
      · exact absurd (hmatch x (List.mem_append.mpr (Or.inl hx')) r hr) hrcs
      · rcases List.mem_cons.mp hx' with rfl | hx''
        · exact hv
        · exact absurd (hmatch x
            (List.mem_append.mpr (Or.inr (List.mem_cons_of_mem _ hx''))) r hr) hrcs
  exact validateSorted_checksum h1' h2' h3' h4'

/-- The applied migration, its edited variant, and the driver state used by
the C6 witness. -/
def exMA : Migration := { Version := 1, Description := [], Script := strBytes "A" }

def exMB : Migration := { Version := 1, Description := [], Script := strBytes "B" }

def exRA : MigrationRecord :=
  { Version := 1, Description := [], Checksum := exMA.Checksum, AppliedAt := 0,
    ExecutionTime := 0 }

def exDA : DriverState := { records := [exRA], execF := fun _ => none }

/-- Witness for C6: editing the applied script `A` to `B` flips the next
`Validate` from success to `InvalidChecksumError` at its version. -/
theorem C6_checksum_sensitivity_witness :
    (Validate exDA [exMB]).2 = some (.InvalidChecksum 1) :=
  C6_checksum_sensitivity exDA [] [] exMA exMB (by decide) (by decide)
    (by decide) ⟨exRA, by decide, by decide⟩ (by decide)

theorem Migrate_fail_proj (d : DriverState) (now : Nat) (ms : List Migration)
    (e : DarwinError)
    (h : validateSorted d.records (sortMigrations ms) = some e) :
    Migrate d now ms =
      { state := d, callerSlice := sortMigrations ms, trace := [],
        err := some e } := by
  unfold Migrate
  rw [h]

theorem Migrate_ok_proj (d : DriverState) (now : Nat) (ms : List Migration)
    (h : validateSorted d.records (sortMigrations ms) = none) :
    Migrate d now ms =
      ⟨⟨(migrateLoop d.execF now d.records
          (planMigration d.records (sortMigrations ms))).1, d.execF⟩,
        sortMigrations ms,
        (migrateLoop d.execF now d.records
          (planMigration d.records (sortMigrations ms))).2.1,
        (migrateLoop d.execF now d.records
          (planMigration d.records (sortMigrations ms))).2.2⟩ := by
  unfold Migrate
  rw [h]

/-- Claim C4: if the `N`-th planned migration's script fails during `Migrate`
(after the earlier planned ones executed), the records inserted for planned
migrations `1..N-1` are kept, migration `N` is executed but no record is
inserted for it (its version is absent from the final table), nothing after
`N` is executed, and `Migrate` returns the `Exec` error immediately. -/
theorem C4_migrate_stops_at_failure (d : DriverState) (now : Nat)
    (ms pre post : List Migration) (mN : Migration)
    (hval : validateSorted d.records (sortMigrations ms) = none)
    (hplan : planMigration d.records (sortMigrations ms) = pre ++ mN :: post)
    (hexec : ∀ m ∈ pre, d.execF m.Script ≠ none)
    (hfail : d.execF mN.Script = none) :
    (Migrate d now ms).state.records =
      d.records ++ pre.map (fun m => mkRecord m ((d.execF m.Script).getD 0) now) ∧
    (Migrate d now ms).trace = pre.map (fun m => m.Script) ++ [mN.Script] ∧
    (Migrate d now ms).err = some (.ExecFailed mN.Script) ∧
    mN.Version ∉ (Migrate d now ms).state.records.map (fun r => r.Version) := by
  have hnd0 : ((sortMigrations ms).map (fun m => m.Version)).Nodup :=
    isDuplicated_eq_none.mp (validateSorted_eq_none.mp hval).2.1
  have hpnd : ((pre ++ mN :: post).map (fun m => m.Version)).Nodup := by
    have h0 : ((planMigration d.records (sortMigrations ms)).map
        (fun m => m.Version)).Nodup := planMigration_nodup hnd0
    rw [hplan] at h0
    exact h0
  have hplanned_fresh : ∀ m ∈ pre ++ mN :: post, ∀ r ∈ d.records,
      r.Version ≠ m.Version := by
    intro m hm r hr
    have hm' : m ∈ planMigration d.records (sortMigrations ms) := by
      rw [hplan]
      exact hm
    exact planMigration_fresh hm' r hr
  have hprend : (pre.map (fun m => m.Version)).Nodup := by
    have hsub : (pre.map (fun m => m.Version)).Sublist
        ((pre ++ mN :: post).map (fun m => m.Version)) :=
      (List.sublist_append_left pre (mN :: post)).map (fun m => m.Version)
    exact hsub.nodup hpnd
  have hloop := migrateLoop_fail d.execF now d.records pre post mN hexec
    (fun m hm r hr => hplanned_fresh m (List.mem_append.mpr (Or.inl hm)) r hr)
    hprend hfail
  have hmNpre : mN.Version ∉ pre.map (fun m => m.Version) := by
    intro hc
    rw [List.map_append, List.map_cons] at hpnd
    rcases List.nodup_append.mp hpnd with ⟨_, _, hdisj⟩
    exact hdisj hc (List.mem_cons_self _ _)
  rw [Migrate_ok_proj d now ms hval, hplan, hloop]
  refine ⟨rfl, rfl, rfl, ?_⟩
  rw [List.map_append]
  intro hc
  rcases List.mem_append.mp hc with hc' | hc'
  · rcases List.mem_map.mp hc' with ⟨r, hr, hrv⟩
    exact hplanned_fresh mN
      (List.mem_append.mpr (Or.inr (List.mem_cons_self _ _))) r hr hrv
  · rcases List.mem_map.mp hc' with ⟨q, hq, hqv⟩
    rcases List.mem_map.mp hq with ⟨x, hx, rfl⟩
    apply hmNpre
    rw [← hqv]
    exact List.mem_map.mpr ⟨x, hx, rfl⟩

/-- Migrations and the failing driver used by the C4 witness. -/
def exSA : Migration := { Version := 1, Description := [], Script := strBytes "A" }

def exSBAD : Migration :=
  { Version := 2, Description := [], Script := strBytes "BAD" }

def exSC : Migration := { Version := 3, Description := [], Script := strBytes "C" }

def exDfail : DriverState :=
  { records := [],
    execF := fun s => if s = strBytes "BAD" then none else some 7 }

/-- Witness for C4: with three planned migrations whose second script fails,
the first is recorded, the failing one is executed but unrecorded, the third
is untouched, and the `Exec` error is returned. -/
theorem C4_migrate_stops_at_failure_witness :
    (Migrate exDfail 5 [exSA, exSBAD, exSC]).err =
      some (.ExecFailed exSBAD.Script) ∧
    (Migrate exDfail 5 [exSA, exSBAD, exSC]).trace =
      [exSA.Script, exSBAD.Script] ∧
    exSBAD.Version ∉ (Migrate exDfail 5 [exSA, exSBAD, exSC]).state.records.map
      (fun r => r.Version) := by
  have h := C4_migrate_stops_at_failure exDfail 5 [exSA, exSBAD, exSC]
    [exSA] [exSC] exSBAD (by decide) (by decide) (by decide) (by decide)
  refine ⟨h.2.2.1, ?_, h.2.2.2⟩
  rw [h.2.1]
  rfl

/-- Claim C7: idempotence of `Migrate`.  If a `Migrate` call succeeds, an
immediately following `Migrate` with the same migration set and no
intervening changes executes zero scripts, inserts zero records, and also
succeeds. -/
theorem C7_migrate_idempotent (d : DriverState) (now now2 : Nat)
    (ms : List Migration) (h : (Migrate d now ms).err = none) :
    (Migrate (Migrate d now ms).state now2 ms).trace = [] ∧
    (Migrate (Migrate d now ms).state now2 ms).err = none ∧
    (Migrate (Migrate d now ms).state now2 ms).state.records =
      (Migrate d now ms).state.records := by
  have hval : validateSorted d.records (sortMigrations ms) = none := by
    cases hv : validateSorted d.records (sortMigrations ms) with
    | none => rfl
    | some e =>
      rw [Migrate_fail_proj d now ms e hv] at h
      exact absurd h (by simp)
  have h' : (migrateLoop d.execF now d.records
      (planMigration d.records (sortMigrations ms))).2.2 = none := by
    rw [Migrate_ok_proj d now ms hval] at h
    exact h
  have hrec1 : (migrateLoop d.execF now d.records
      (planMigration d.records (sortMigrations ms))).1 =
      d.records ++ (planMigration d.records (sortMigrations ms)).map
        (fun m => mkRecord m ((d.execF m.Script).getD 0) now) :=
    migrateLoop_none _ _ _ _ h'
  obtain ⟨h1, h2, h3, h4⟩ := validateSorted_eq_none.mp hval
  have hnd0 : ((sortMigrations ms).map (fun m => m.Version)).Nodup :=
    isDuplicated_eq_none.mp h2
  have h3' : wasRemovedMigration
      (d.records ++ (planMigration d.records (sortMigrations ms)).map
        (fun m => mkRecord m ((d.execF m.Script).getD 0) now))
      (sortMigrations ms) = none := by
    rw [wasRemovedMigration_eq_none]
    intro r hr
    rcases List.mem_append.mp hr with hr' | hr'
    · exact wasRemovedMigration_eq_none.mp h3 r hr'
    · rcases List.mem_map.mp hr' with ⟨p, hp, rfl⟩
      exact ⟨p, planMigration_mem hp, rfl⟩
  have h4' : isInvalidChecksumMigration
      (d.records ++ (planMigration d.records (sortMigrations ms)).map
        (fun m => mkRecord m ((d.execF m.Script).getD 0) now))
      (sortMigrations ms) = none := by
    rw [isInvalidChecksumMigration_eq_none]
    intro m hm r hr
    rw [lastRecordFor_append] at hr
    cases hl : lastRecordFor
        ((planMigration d.records (sortMigrations ms)).map
          (fun m => mkRecord m ((d.execF m.Script).getD 0) now))
        m.Version with
    | some q =>
      rw [hl] at hr
      injection hr with hr
      rcases lastRecordFor_some hl with ⟨hqmem, hqv⟩
      rcases List.mem_map.mp hqmem with ⟨p, hp, hpq⟩
      have hpm : p = m := by
        apply List.inj_on_of_nodup_map hnd0 (planMigration_mem hp) hm
        rw [← hqv, ← hpq]
        rfl
      rw [← hr, ← hpq, ← hpm]
      rfl
    | none =>
      rw [hl] at hr
      exact isInvalidChecksumMigration_eq_none.mp h4 m hm r hr
  have hvalid1 : validateSorted
      (d.records ++ (planMigration d.records (sortMigrations ms)).map
        (fun m => mkRecord m ((d.execF m.Script).getD 0) now))
      (sortMigrations ms) = none :=
    validateSorted_eq_none.mpr ⟨h1, h2, h3', h4'⟩
  have hplan2 : planMigration
      (d.records ++ (planMigration d.records (sortMigrations ms)).map
        (fun m => mkRecord m ((d.execF m.Script).getD 0) now))
      (sortMigrations ms) = [] := by
    cases hs : sortRecordsDesc
        (d.records ++ (planMigration d.records (sortMigrations ms)).map
          (fun m => mkRecord m ((d.execF m.Script).getD 0) now)) with
    | nil =>
      have hnil := sortRecordsDesc_eq_nil.mp hs
      rcases List.append_eq_nil.mp hnil with ⟨hd0, hnew0⟩
      have hP0 : planMigration d.records (sortMigrations ms) = [] :=
        List.map_eq_nil_iff.mp hnew0
      have hms0 : sortMigrations ms = [] := by
        rw [hd0, planMigration_nil] at hP0
        exact hP0
      rw [planMigration_eq_match
        (d.records ++ (planMigration d.records (sortMigrations ms)).map
          (fun m => mkRecord m ((d.execF m.Script).getD 0) now))
        (sortMigrations ms), hs]
      exact hms0
    | cons last t =>
      have hmax := sortRecordsDesc_head_max hs
      have hfilter : (sortMigrations ms).filter
          (fun m => m.Version > last.Version) = [] := by
        rw [List.filter_eq_nil_iff]
        intro m hm
        simp only [decide_eq_true_eq, not_lt]
        cases hdr : d.records with
        | nil =>
          have hmP : m ∈ planMigration d.records (sortMigrations ms) := by
            rw [hdr, planMigration_nil]
            exact hm
          exact hmax.2 (mkRecord m ((d.execF m.Script).getD 0) now)
            (List.mem_append.mpr (Or.inr (List.mem_map.mpr ⟨m, hmP, rfl⟩)))
        | cons r0 t0 =>
          cases hs0 : sortRecordsDesc d.records with
          | nil =>
            exact absurd (sortRecordsDesc_eq_nil.mp hs0) (by rw [hdr]; simp)
          | cons last0 t0' =>
            have hmax0 := sortRecordsDesc_head_max hs0
            by_cases hcmp : m.Version ≤ last0.Version
            · exact le_trans hcmp (hmax.2 last0
                (List.mem_append.mpr (Or.inl hmax0.1)))
            · push_neg at hcmp
              have hmP : m ∈ planMigration d.records (sortMigrations ms) := by
                rw [planMigration_eq_match d.records (sortMigrations ms), hs0]
                exact mem_sortMigrations.mpr
                  (List.mem_filter.mpr ⟨hm, by simp [hcmp]⟩)
              exact hmax.2 (mkRecord m ((d.execF m.Script).getD 0) now)
                (List.mem_append.mpr (Or.inr (List.mem_map.mpr ⟨m, hmP, rfl⟩)))
      rw [planMigration_eq_match
        (d.records ++ (planMigration d.records (sortMigrations ms)).map
          (fun m => mkRecord m ((d.execF m.Script).getD 0) now))
        (sortMigrations ms), hs]
      show sortMigrations ((sortMigrations ms).filter
        (fun m => m.Version > last.Version)) = []
      rw [hfilter]
      rfl
  have hstrec : (Migrate d now ms).state.records =
      d.records ++ (planMigration d.records (sortMigrations ms)).map
        (fun m => mkRecord m ((d.execF m.Script).getD 0) now) := by
    rw [Migrate_ok_proj d now ms hval]
    exact hrec1
  have hval2 : validateSorted (Migrate d now ms).state.records
      (sortMigrations ms) = none := by
    rw [hstrec]
    exact hvalid1
  have hplan2' : planMigration (Migrate d now ms).state.records
      (sortMigrations ms) = [] := by
    rw [hstrec]
    exact hplan2
  rw [Migrate_ok_proj ((Migrate d now ms).state) now2 ms hval2, hplan2']
  exact ⟨rfl, rfl, rfl⟩

/-- The succeeding driver used by the C7 witness. -/
def exDok : DriverState := { records := [], execF := fun _ => some 3 }

/-- Witness for C7: a second `Migrate` right after a successful one executes
nothing, inserts nothing, and succeeds. -/
theorem C7_migrate_idempotent_witness :
    (Migrate (Migrate exDok 5 [exMA]).state 6 [exMA]).trace = [] ∧
    (Migrate (Migrate exDok 5 [exMA]).state 6 [exMA]).err = none ∧
    (Migrate (Migrate exDok 5 [exMA]).state 6 [exMA]).state.records =
      (Migrate exDok 5 [exMA]).state.records :=
  C7_migrate_idempotent exDok 5 6 [exMA] (by decide)
